import Mathlib

/-!
Verification of the latest-value weight store in `src/app.py` of the
`erp227/weight_data` repository.

The Flask application stores, per machine identifier, a single JSON file
`machine_{id}.json` inside one data directory.  The model below embeds the
store-relevant behaviour of the source:

* the filesystem is the contents of the data directory, an association list
  from filename to file content, in `os.listdir` order;
* `datetime.now()` is an abstract clock `Nat → Nat` consumed one tick per
  call (`Sys.ctr` counts the calls made so far);
* persistence faults during `save_weight_data` are injected through a
  `WriteOutcome` parameter: `open(path, 'w')` either succeeds, raises before
  touching the file, or truncates the file and then fails during
  `json.dump` (in-place write, as in the source);
* Python floats are modelled with exact rational finite values plus the
  `inf`/`-inf`/`nan` specials that `float(...)` can produce and that
  `json.dump`/`json.load` round-trip; binary rounding and the overflow of
  astronomically large decimal literals are not modelled (no claim depends
  on them).
-/

/-- Result values of CPython `float(...)`: exact finite rationals plus the
special values. -/
inductive PyFloat where
  | finite (q : ℚ)
  | inf
  | neginf
  | nan
deriving DecidableEq

/-- True exactly on finite float values. -/
def isFiniteWeight : PyFloat → Bool
  | .finite _ => true
  | _ => false

/-- Negation of a Python float, used for a leading `-` sign in `float(s)`;
note `float("-nan")` is `nan`. -/
def pyNeg : PyFloat → PyFloat
  | .finite q => .finite (-q)
  | .inf => .neginf
  | .neginf => .inf
  | .nan => .nan

/-- ASCII decimal digit test. -/
def isDigitChar (c : Char) : Bool := '0' ≤ c && c ≤ '9'

/-- Numeric value of a decimal digit character. -/
def digitVal (c : Char) : Nat := c.toNat - 48

/-- Value of a digit string, most significant digit first. -/
def digitsToNat (l : List Char) : Nat := l.foldl (fun a c => a * 10 + digitVal c) 0

/-- ASCII lower-casing, enough for `inf`/`INFINITY`/`NaN`/`1E5` handling in
`float(s)`. -/
def lowerChar (c : Char) : Char :=
  if 'A' ≤ c ∧ c ≤ 'Z' then Char.ofNat (c.toNat + 32) else c

/-- Exponent tail of a float literal: optional sign, then at least one
digit. -/
def parseExpPart (mant : ℚ) (l : List Char) : Option ℚ :=
  let p : Int × List Char :=
    match l with
    | '+' :: r => (1, r)
    | '-' :: r => (-1, r)
    | _ => (1, l)
  if p.2 = [] ∨ ¬ p.2.all isDigitChar then none
  else some (mant * (10 : ℚ) ^ (p.1 * (digitsToNat p.2 : Int)))

/-- Finite decimal literal accepted by `float(s)` (input already
lower-cased): `digits[.digits][e…]`, `.digits[e…]`, `digits.[e…]`. -/
def parseDecimal (l : List Char) : Option ℚ :=
  let ip := l.takeWhile isDigitChar
  let r1 := l.dropWhile isDigitChar
  let fp := match r1 with
    | '.' :: rest => rest.takeWhile isDigitChar
    | _ => []
  let r2 := match r1 with
    | '.' :: rest => rest.dropWhile isDigitChar
    | _ => r1
  if ip = [] ∧ fp = [] then none
  else
    let mant : ℚ := (digitsToNat ip : ℚ) + (digitsToNat fp : ℚ) / (10 : ℚ) ^ fp.length
    match r2 with
    | [] => some mant
    | 'e' :: rest => parseExpPart mant rest
    | _ => none

/-- Strip leading and trailing whitespace, as `float(s)` does. -/
def stripWsChars (l : List Char) : List Char :=
  ((l.dropWhile Char.isWhitespace).reverse.dropWhile Char.isWhitespace).reverse

/-- Models CPython `float(s)` on ASCII strings: optional whitespace and
sign, then `inf`/`infinity`/`nan` (case-insensitive) or a decimal literal;
`none` models a `ValueError`.  (Underscore digit separators and non-ASCII
digits are outside the modelled input space; no claim uses them.) -/
def pyFloatOfString (s : String) : Option PyFloat :=
  let core : List Char → Option PyFloat := fun l =>
    if l = "inf".toList ∨ l = "infinity".toList then some PyFloat.inf
    else if l = "nan".toList then some PyFloat.nan
    else (parseDecimal l).map PyFloat.finite
  match (stripWsChars s.toList).map lowerChar with
  | '+' :: r => core r
  | '-' :: r => (core r).map pyNeg
  | l => core l

/-- A JSON value as decoded by `request.get_json()`.  `compound` stands for
any array or object value: the handler only ever passes the value to
`float(...)`, which raises `TypeError` on those regardless of content. -/
inductive JsonValue where
  | null
  | jbool (b : Bool)
  | num (x : PyFloat)
  | str (s : String)
  | compound
deriving DecidableEq

/-- The two exception classes `float(...)` can raise here, which
`update_weight` handles differently (400 vs 500). -/
inductive PyErr where
  | valueError
  | typeError
deriving DecidableEq

/-- CPython `float(x)` on a decoded JSON value: numbers pass through, bools
become 0.0/1.0, strings are parsed (`ValueError` on failure), `None` and
arrays/objects raise `TypeError`. -/
def floatOfJson : JsonValue → Except PyErr PyFloat
  | .num x => .ok x
  | .jbool b => .ok (.finite (if b then 1 else 0))
  | .str s =>
    match pyFloatOfString s with
    | some x => .ok x
    | none => .error .valueError
  | .null => .error .typeError
  | .compound => .error .typeError

/-- The dict written by `save_weight_data`: machine_id, weight, an
isoformat timestamp and a second-resolution last_updated string.  The two
time fields are modelled by the instants (clock values) at which the
corresponding `datetime.now()` calls happened. -/
structure StoredRecord where
  machine_id : String
  weight : PyFloat
  timestamp : Nat
  last_updated : Nat
deriving DecidableEq

/-- Durable content of one file: either the `json.dump` encoding of a
record written by `save_weight_data`, or bytes that `json.load` rejects
(truncated partial writes, an empty file, external corruption). -/
inductive FileContent where
  | record (r : StoredRecord)
  | corrupt
deriving DecidableEq

/-- The data directory: filename/content pairs in `os.listdir` order. -/
abbrev FS := List (String × FileContent)

/-- Whole-system state: directory contents plus the number of
`datetime.now()` calls made so far. -/
structure Sys where
  fs : FS
  ctr : Nat
deriving DecidableEq

/-- Left-to-right scan of Python `s.replace(pat, '')`, with `k` characters
of an already-matched occurrence still to discard. -/
def stripGo (pat : List Char) : List Char → Nat → List Char
  | [], _ => []
  | _ :: t, k + 1 => stripGo pat t k
  | c :: t, 0 =>
    if pat ≠ [] ∧ pat.isPrefixOf (c :: t) then stripGo pat t (pat.length - 1)
    else c :: stripGo pat t 0

/-- Python `s.replace(pat, '')`: delete every (left-to-right,
non-overlapping) occurrence of `pat`. -/
def stripAll (pat s : List Char) : List Char := stripGo pat s 0

/-- Python `s.replace(pat, '')` at the string level. -/
def pyReplaceAll (s pat : String) : String := ⟨stripAll pat.toList s.toList⟩

/-- Python `s.startswith(p)`. -/
def pyStartswith (s p : String) : Bool := p.toList.isPrefixOf s.toList

/-- Python `s.endswith(p)`. -/
def pyEndswith (s p : String) : Bool := p.toList.isSuffixOf s.toList

/-- Occurrence test: does `pat` occur contiguously in `s`? -/
def hasSub (pat : List Char) : List Char → Bool
  | [] => pat.isEmpty
  | c :: t => pat.isPrefixOf (c :: t) || hasSub pat t

/-- Identifiers whose filename encoding round-trips: they contain neither
`machine_` nor `.json` as a substring. -/
def cleanId (m : String) : Bool :=
  !(hasSub "machine_".toList m.toList) && !(hasSub ".json".toList m.toList)

/-- `get_machine_file` from src/app.py: the per-machine filename.  The
`DATA_DIR` prefix added by `os.path.join` is omitted because the model's
`FS` is the contents of that directory itself. -/
def get_machine_file (machine_id : String) : String :=
  "machine_" ++ machine_id ++ ".json"

/-- The inline decoding in `get_all_machines` of src/app.py:
`filename.replace('machine_', '').replace('.json', '')` — note Python
`str.replace` deletes every occurrence, not just the affixes. -/
def decode_machine_filename (filename : String) : String :=
  pyReplaceAll (pyReplaceAll filename "machine_") ".json"

/-- First-match lookup of a filename in the directory. -/
def lookupFile : FS → String → Option FileContent
  | [], _ => none
  | (n, c) :: t, name => if n = name then some c else lookupFile t name

/-- Writing a file: replace the content in place if the name exists,
otherwise create it (at the end of the listing order). -/
def setFile : FS → String → FileContent → FS
  | [], name, c => [(name, c)]
  | (n, c') :: t, name, c =>
    if n = name then (name, c) :: t else (n, c') :: setFile t name c

/-- Number of directory entries carrying a given filename. -/
def countName (fs : FS) (name : String) : Nat :=
  (fs.filter (fun e => e.1 == name)).length

/-- Directory with every entry of the given filename removed. -/
def removeFile (fs : FS) (name : String) : FS :=
  fs.filter (fun e => !(e.1 == name))

/-- Fault injection for one `save_weight_data` call: the write succeeds;
or `open(path, 'w')` raises before touching the file (e.g. permission
denied); or `open` succeeds — truncating the existing file in place — and
`json.dump` then fails (e.g. disk full), leaving bytes `json.load`
rejects. -/
inductive WriteOutcome where
  | ok
  | failOpen
  | failDump
deriving DecidableEq

/-- `save_weight_data` from src/app.py.  The record dict (with its two
`datetime.now()` calls) is built before the `try` block, so the clock
advances by two in every outcome; the `except` clause turns any write
failure into a `False` return. -/
def save_weight_data (clock : Nat → Nat) (outcome : WriteOutcome) (s : Sys)
    (machine_id : String) (weight : PyFloat) : Bool × Sys :=
  let r : StoredRecord :=
    { machine_id := machine_id, weight := weight,
      timestamp := clock s.ctr, last_updated := clock (s.ctr + 1) }
  match outcome with
  | .ok => (true, ⟨setFile s.fs (get_machine_file machine_id) (.record r), s.ctr + 2⟩)
  | .failOpen => (false, ⟨s.fs, s.ctr + 2⟩)
  | .failDump => (false, ⟨setFile s.fs (get_machine_file machine_id) .corrupt, s.ctr + 2⟩)

/-- `load_weight_data` from src/app.py: `None` for a missing file and for
any file whose bytes `json.load` rejects (the broad `except` clause). -/
def load_weight_data (fs : FS) (machine_id : String) : Option StoredRecord :=
  match lookupFile fs (get_machine_file machine_id) with
  | some (.record r) => some r
  | some .corrupt => none
  | none => none

/-- Response shapes of `GET /api/weight/<machine_id>`: the success shape
and the distinct `no_data` shape (both HTTP 200). -/
inductive GetWeightResp where
  | success (machine_id : String) (weight : PyFloat) (timestamp : Nat)
  | no_data (message : String)
deriving DecidableEq

/-- The `no_data` message text of `get_weight`. -/
def noDataMsg (machine_id : String) : String :=
  "No weight data available for Machine " ++ machine_id

/-- `get_weight` route from src/app.py. -/
def get_weight (fs : FS) (machine_id : String) : GetWeightResp :=
  match load_weight_data fs machine_id with
  | some r => .success machine_id r.weight r.timestamp
  | none => .no_data (noDataMsg machine_id)

/-- Response shapes of `POST /api/update/<machine_id>`: success (200),
client error (400) and server error (500). -/
inductive UpdateResp where
  | success (message machine_id : String) (weight : PyFloat) (timestamp : Nat)
  | clientError (message : String)
  | serverError (message : String)
deriving DecidableEq

/-- The success message text of `update_weight`. -/
def updMsg (machine_id : String) : String :=
  "Weight updated for Machine " ++ machine_id

/-- Python dict lookup on the decoded JSON object (keys unique). -/
def dictGet : List (String × JsonValue) → String → Option JsonValue
  | [], _ => none
  | (k, v) :: t, key => if k = key then some v else dictGet t key

/-- Stand-in for `str(e)` of the `TypeError` raised by `float(...)` on
`None`/array/object; no claim depends on the exact text. -/
def typeErrorText : String := "float() argument must be a string or a real number"

/-- `update_weight` route from src/app.py, for a request whose body decodes
to a JSON object (`some kvs`) or to nothing (`none`).  `not data` is true
for `None` and for the empty dict; a `ValueError` from `float` yields 400,
a `TypeError` falls into the broad `except` clause and yields 500; the
success response draws a third, fresh `datetime.now()` timestamp. -/
def update_weight (clock : Nat → Nat) (outcome : WriteOutcome) (s : Sys)
    (machine_id : String) (payload : Option (List (String × JsonValue))) :
    UpdateResp × Sys :=
  match payload with
  | none => (.clientError "No weight data provided", s)
  | some kvs =>
    if kvs = [] then (.clientError "No weight data provided", s)
    else
      match dictGet kvs "weight" with
      | none => (.clientError "No weight data provided", s)
      | some v =>
        match floatOfJson v with
        | .error .valueError => (.clientError "Invalid weight format", s)
        | .error .typeError => (.serverError typeErrorText, s)
        | .ok w =>
          let p := save_weight_data clock outcome s machine_id w
          if p.1 then
            (.success (updMsg machine_id) machine_id w (clock p.2.ctr),
             ⟨p.2.fs, p.2.ctr + 1⟩)
          else (.serverError "Failed to save weight data", p.2)

/-- One entry of the `/api/machines` listing. -/
structure MachineSummary where
  machine_id : String
  weight : PyFloat
  last_updated : Nat
deriving DecidableEq

/-- Loop body of `get_all_machines` for one directory entry: keep names
matching `machine_*.json`, decode the name, and re-load the data via
`load_weight_data` on the decoded identifier (which re-encodes it); an
entry whose load yields nothing is skipped. -/
def entrySummary (fs : FS) (e : String × FileContent) : Option MachineSummary :=
  if pyStartswith e.1 "machine_" && pyEndswith e.1 ".json" then
    match load_weight_data fs (decode_machine_filename e.1) with
    | some r =>
      some { machine_id := decode_machine_filename e.1, weight := r.weight,
             last_updated := r.last_updated }
    | none => none
  else none

/-- `get_all_machines` from src/app.py: scan the directory listing and
collect the per-entry summaries. -/
def get_all_machines (fs : FS) : List MachineSummary :=
  fs.filterMap (entrySummary fs)

/-- Response of `GET /api/machines`. -/
structure ListMachinesResp where
  status : String
  machines : List MachineSummary
  count : Nat
deriving DecidableEq

/-- `list_machines` route from src/app.py. -/
def list_machines (fs : FS) : ListMachinesResp :=
  { status := "success", machines := get_all_machines fs,
    count := (get_all_machines fs).length }

/-! ### Properties of the `replace`-based filename codec -/

theorem stripGo_shift (pat : List Char) :
    ∀ (s : List Char) (k : Nat), stripGo pat s k = stripGo pat (s.drop k) 0 := by
  intro s
  induction s with
  | nil => intro k; simp [stripGo]
  | cons c t ih =>
    intro k
    match k with
    | 0 => rfl
    | k + 1 => simpa [stripGo] using ih k

theorem stripAll_nil (pat : List Char) : stripAll pat [] = [] := rfl

theorem stripAll_cons (pat : List Char) (c : Char) (t : List Char) :
    stripAll pat (c :: t) =
      if pat ≠ [] ∧ pat.isPrefixOf (c :: t) then stripAll pat (t.drop (pat.length - 1))
      else c :: stripAll pat t := by
  show stripGo pat (c :: t) 0 = _
  simp only [stripGo]
  split
  · exact stripGo_shift pat t (pat.length - 1)
  · rfl

theorem stripAll_cons_matched (pat : List Char) (c : Char) (t : List Char)
    (hne : pat ≠ []) (h : pat <+: (c :: t)) :
    stripAll pat (c :: t) = stripAll pat ((c :: t).drop pat.length) := by
  rw [stripAll_cons]
  rw [if_pos ⟨hne, List.isPrefixOf_iff_prefix.mpr h⟩]
  have hlen : pat.length - 1 + 1 = pat.length :=
    Nat.succ_pred_eq_of_pos (List.length_pos.mpr hne)
  have hdrop : (c :: t).drop pat.length = t.drop (pat.length - 1) := by
    conv_lhs => rw [← hlen]
    rw [List.drop_succ_cons]
  rw [hdrop]

theorem stripAll_cons_unmatched (pat : List Char) (c : Char) (t : List Char)
    (h : ¬ pat <+: (c :: t)) :
    stripAll pat (c :: t) = c :: stripAll pat t := by
  rw [stripAll_cons, if_neg]
  intro hc
  exact h (List.isPrefixOf_iff_prefix.mp hc.2)

theorem stripAll_append_left_self (pat s : List Char) (hne : pat ≠ []) :
    stripAll pat (pat ++ s) = stripAll pat s := by
  match pat, hne with
  | p :: pt, _ =>
    rw [List.cons_append, stripAll_cons_matched (p :: pt) p (pt ++ s) (List.cons_ne_nil p pt)
      (by rw [← List.cons_append]; exact List.prefix_append _ _)]
    rw [← List.cons_append, List.drop_left]

theorem stripAll_length_le_aux (pat : List Char) :
    ∀ (n : Nat) (s : List Char), s.length ≤ n →
      (stripAll pat s).length ≤ s.length := by
  intro n
  induction n with
  | zero =>
    intro s hs
    match s, hs with
    | [], _ => simp [stripAll_nil]
  | succ n ih =>
    intro s hs
    match s with
    | [] => simp [stripAll_nil]
    | c :: t =>
      by_cases h : pat <+: (c :: t)
      · by_cases hne : pat = []
        · subst hne
          rw [stripAll_cons]
          simp only [ne_eq, not_true_eq_false, false_and, if_false]
          have hs' : t.length ≤ n := by simp only [List.length_cons] at hs; omega
          have := ih t hs'
          simpa using Nat.succ_le_succ this
        · rw [stripAll_cons_matched pat c t hne h]
          have hlen : ((c :: t).drop pat.length).length ≤ n := by
            have hp : 1 ≤ pat.length := List.length_pos.mpr hne
            simp only [List.length_cons] at hs
            simp only [List.length_drop, List.length_cons]
            omega
          calc (stripAll pat ((c :: t).drop pat.length)).length
              ≤ ((c :: t).drop pat.length).length := ih _ hlen
            _ ≤ (c :: t).length := by simp [List.length_drop]
      · rw [stripAll_cons_unmatched pat c t h]
        have hs' : t.length ≤ n := by simp only [List.length_cons] at hs; omega
        have := ih t hs'
        simpa using Nat.succ_le_succ this

theorem stripAll_length_le (pat s : List Char) :
    (stripAll pat s).length ≤ s.length :=
  stripAll_length_le_aux pat s.length s le_rfl

theorem stripAll_length_add_le_aux (pat : List Char) (hne : pat ≠ []) :
    ∀ (n : Nat) (s : List Char), s.length ≤ n → pat <:+: s →
      (stripAll pat s).length + pat.length ≤ s.length := by
  intro n
  induction n with
  | zero =>
    intro s hs hinf
    match s, hs with
    | [], _ => exact absurd (List.infix_nil.mp hinf) hne
  | succ n ih =>
    intro s hs hinf
    match s with
    | [] => exact absurd (List.infix_nil.mp hinf) hne
    | c :: t =>
      by_cases h : pat <+: (c :: t)
      · rw [stripAll_cons_matched pat c t hne h]
        have hple : pat.length ≤ (c :: t).length := h.length_le
        have := stripAll_length_le pat ((c :: t).drop pat.length)
        simp only [List.length_drop] at this ⊢
        omega
      · rw [stripAll_cons_unmatched pat c t h]
        have ht : pat <:+: t := by
          rcases List.infix_cons_iff.mp hinf with hp | hp
          · exact absurd hp h
          · exact hp
        have hs' : t.length ≤ n := by simp only [List.length_cons] at hs; omega
        have := ih t hs' ht
        simp only [List.length_cons]
        omega

theorem stripAll_length_add_le (pat s : List Char) (hne : pat ≠ [])
    (hinf : pat <:+: s) : (stripAll pat s).length + pat.length ≤ s.length :=
  stripAll_length_add_le_aux pat hne s.length s le_rfl hinf

theorem stripAll_of_not_sub (pat : List Char) :
    ∀ s : List Char, ¬ pat <:+: s → stripAll pat s = s := by
  intro s
  induction s with
  | nil => intro _; exact stripAll_nil pat
  | cons c t ih =>
    intro h
    have hnp : ¬ pat <+: (c :: t) := fun hp => h hp.isInfix
    rw [stripAll_cons_unmatched pat c t hnp]
    have : ¬ pat <:+: t := fun hi => h (List.infix_cons_iff.mpr (Or.inr hi))
    rw [ih this]

theorem stripAll_append_split_aux (pat b : List Char) (hne : pat ≠ []) :
    ∀ (n : Nat) (a : List Char), a.length ≤ n →
      (∀ a₂, a₂ ≠ [] → a₂ <:+ a → pat <+: (a₂ ++ b) → pat <+: a₂) →
      stripAll pat (a ++ b) = stripAll pat a ++ stripAll pat b := by
  intro n
  induction n with
  | zero =>
    intro a ha _
    match a, ha with
    | [], _ => simp [stripAll_nil]
  | succ n ih =>
    intro a ha hH
    match a with
    | [] => simp [stripAll_nil]
    | c :: t =>
      by_cases hp : pat <+: (c :: t)
      · have hpb : pat <+: (c :: t) ++ b := hp.trans (List.prefix_append _ _)
        have hple : pat.length ≤ (c :: t).length := hp.length_le
        rw [List.cons_append] at hpb
        have h1 : stripAll pat ((c :: t) ++ b) =
            stripAll pat (((c :: t) ++ b).drop pat.length) := by
          rw [List.cons_append]
          exact stripAll_cons_matched pat c (t ++ b) hne hpb
        rw [h1, List.drop_append_of_le_length hple,
          stripAll_cons_matched pat c t hne hp]
        have hlen : ((c :: t).drop pat.length).length ≤ n := by
          have hp1 : 1 ≤ pat.length := List.length_pos.mpr hne
          simp only [List.length_cons] at ha
          simp only [List.length_drop, List.length_cons]
          omega
        exact ih ((c :: t).drop pat.length) hlen (fun a₂ h0 hsuf =>
          hH a₂ h0 (hsuf.trans (List.drop_suffix _ _)))
      · have hpb : ¬ pat <+: (c :: t) ++ b := fun hx =>
          hp (hH (c :: t) (List.cons_ne_nil c t) List.suffix_rfl hx)
        rw [List.cons_append] at hpb
        have h1 : stripAll pat ((c :: t) ++ b) = c :: stripAll pat (t ++ b) := by
          rw [List.cons_append]
          exact stripAll_cons_unmatched pat c (t ++ b) hpb
        rw [h1, stripAll_cons_unmatched pat c t hp]
        have hs' : t.length ≤ n := by simp only [List.length_cons] at ha; omega
        rw [ih t hs' (fun a₂ h0 hsuf => hH a₂ h0 (hsuf.trans (List.suffix_cons c t)))]
        simp

theorem stripAll_append_split (pat b a : List Char) (hne : pat ≠ [])
    (hH : ∀ a₂, a₂ ≠ [] → a₂ <:+ a → pat <+: (a₂ ++ b) → pat <+: a₂) :
    stripAll pat (a ++ b) = stripAll pat a ++ stripAll pat b :=
  stripAll_append_split_aux pat b hne a.length a le_rfl hH

theorem not_prefix_append_self (pat a : List Char)
    (hbf : ∀ k, k < pat.length → 0 < k → (pat.drop k).isPrefixOf pat = false)
    (ha : a ≠ []) (hno : ¬ pat <:+: a) : ¬ pat <+: (a ++ pat) := by
  intro h
  rcases le_or_lt pat.length a.length with hle | hlt
  · have h1 : pat = (a ++ pat).take pat.length := List.prefix_iff_eq_take.mp h
    rw [List.take_append_of_le_length hle] at h1
    have : pat <+: a := by
      rw [h1]
      exact List.take_prefix _ _
    exact hno this.isInfix
  · obtain ⟨r, hr⟩ := h
    have hdrop : (pat.drop a.length) ++ r = pat := by
      have := congrArg (List.drop a.length) hr
      rw [List.drop_append_of_le_length (Nat.le_of_lt hlt), List.drop_left] at this
      exact this
    have hpref : (pat.drop a.length).isPrefixOf pat = true :=
      List.isPrefixOf_iff_prefix.mpr ⟨r, hdrop⟩
    have := hbf a.length hlt (List.length_pos.mpr ha)
    rw [this] at hpref
    exact Bool.false_ne_true hpref

theorem stripAll_append_right_self (pat : List Char)
    (hbf : ∀ k, k < pat.length → 0 < k → (pat.drop k).isPrefixOf pat = false)
    (hne : pat ≠ []) :
    ∀ a : List Char, ¬ pat <:+: a → stripAll pat (a ++ pat) = a := by
  intro a
  induction a with
  | nil =>
    intro _
    have h2 := stripAll_append_left_self pat [] hne
    rw [List.append_nil] at h2
    rw [List.nil_append, h2, stripAll_nil]
  | cons c t ih =>
    intro hno
    have hnp : ¬ pat <+: ((c :: t) ++ pat) :=
      not_prefix_append_self pat (c :: t) hbf (List.cons_ne_nil c t) hno
    rw [List.cons_append] at hnp
    rw [List.cons_append, stripAll_cons_unmatched pat c (t ++ pat) hnp]
    have : ¬ pat <:+: t := fun hi => hno (List.infix_cons_iff.mpr (Or.inr hi))
    rw [ih this]

theorem stripAll_append_right_self_length_aux (pat : List Char) (hne : pat ≠ []) :
    ∀ (n : Nat) (a : List Char), a.length ≤ n → pat <:+: a →
      (stripAll pat (a ++ pat)).length < a.length := by
  intro n
  induction n with
  | zero =>
    intro a ha hinf
    match a, ha with
    | [], _ => exact absurd (List.infix_nil.mp hinf) hne
  | succ n ih =>
    intro a ha hinf
    match a with
    | [] => exact absurd (List.infix_nil.mp hinf) hne
    | c :: t =>
      have hple : pat.length ≤ (c :: t).length := hinf.length_le
      have hp1 : 1 ≤ pat.length := List.length_pos.mpr hne
      by_cases hp : pat <+: ((c :: t) ++ pat)
      · rw [List.cons_append] at hp
        have h1 : stripAll pat ((c :: t) ++ pat) =
            stripAll pat (((c :: t) ++ pat).drop pat.length) := by
          rw [List.cons_append]
          exact stripAll_cons_matched pat c (t ++ pat) hne hp
        rw [h1, List.drop_append_of_le_length hple]
        have hinf2 : pat <:+: ((c :: t).drop pat.length ++ pat) :=
          (List.suffix_append _ _).isInfix
        have hlen := stripAll_length_add_le pat ((c :: t).drop pat.length ++ pat) hne hinf2
        simp only [List.length_append, List.length_drop, List.length_cons] at hlen hple ⊢
        omega
      · rw [List.cons_append] at hp
        have h1 : stripAll pat ((c :: t) ++ pat) = c :: stripAll pat (t ++ pat) := by
          rw [List.cons_append]
          exact stripAll_cons_unmatched pat c (t ++ pat) hp
        rw [h1]
        have ht : pat <:+: t := by
          rcases List.infix_cons_iff.mp hinf with hx | hx
          · exact absurd (hx.trans (by
              rw [← List.cons_append]
              exact List.prefix_append _ _)) hp
          · exact hx
        have hs' : t.length ≤ n := by simp only [List.length_cons] at ha; omega
        have hlt := ih t hs' ht
        simp only [List.length_cons]
        omega

theorem stripAll_append_right_self_length (pat a : List Char) (hne : pat ≠ [])
    (hinf : pat <:+: a) : (stripAll pat (a ++ pat)).length < a.length :=
  stripAll_append_right_self_length_aux pat hne a.length a le_rfl hinf

theorem hasSub_iff (pat : List Char) :
    ∀ s : List Char, hasSub pat s = true ↔ pat <:+: s := by
  intro s
  induction s with
  | nil =>
    simp only [hasSub, List.isEmpty_iff, List.infix_nil]
  | cons c t ih =>
    simp only [hasSub, Bool.or_eq_true, List.isPrefixOf_iff_prefix, ih,
      List.infix_cons_iff]

/-! ### The `machine_` / `.json` pattern pair -/

theorem mpat_noCross (a₂ : List Char) (h0 : a₂ ≠ [])
    (h : "machine_".toList <+: (a₂ ++ ".json".toList)) :
    "machine_".toList <+: a₂ := by
  rcases le_or_lt "machine_".toList.length a₂.length with hle | hlt
  · rcases List.prefix_or_prefix_of_prefix h (List.prefix_append a₂ ".json".toList)
      with hx | hx
    · exact hx
    · have heq : a₂ = "machine_".toList :=
        hx.eq_of_length (Nat.le_antisymm hx.length_le hle)
    
      rw [heq]
  · exfalso
    obtain ⟨r, hr⟩ := h
    have hdrop : "machine_".toList.drop a₂.length ++ r = ".json".toList := by
      have hc := congrArg (List.drop a₂.length) hr
      rw [List.drop_append_of_le_length (Nat.le_of_lt hlt), List.drop_left] at hc
      exact hc
    have hne2 : "machine_".toList.drop a₂.length ≠ [] := by
      apply List.length_pos.mp
      simp only [List.length_drop]
      omega
    obtain ⟨d, rest, hM⟩ := List.exists_cons_of_ne_nil hne2
    have hchars : ".json".toList = '.' :: ['j', 's', 'o', 'n'] := by decide
    rw [hM, hchars, List.cons_append, List.cons.injEq] at hdrop
    have hmem : ('.' : Char) ∈ "machine_".toList := by
      have : ('.' : Char) ∈ "machine_".toList.drop a₂.length := by
        rw [hM, hdrop.1]
        exact List.mem_cons_self _ _
      exact List.drop_subset _ _ this
    revert hmem
    decide

theorem mpat_not_sub_jpat : ¬ "machine_".toList <:+: ".json".toList := by
  intro h
  have := h.length_le
  revert this
  decide

theorem jpat_borderFree :
    ∀ k, k < ".json".toList.length → 0 < k →
      ((".json".toList.drop k).isPrefixOf ".json".toList) = false := by
  decide

theorem stripAll_mpat_jpat :
    stripAll "machine_".toList ".json".toList = ".json".toList :=
  stripAll_of_not_sub _ _ mpat_not_sub_jpat

theorem string_eq_of_toList_eq {a b : String} (h : a.toList = b.toList) : a = b :=
  String.ext h

theorem get_machine_file_toList (m : String) :
    (get_machine_file m).toList =
      "machine_".toList ++ (m.toList ++ ".json".toList) := by
  show ("machine_" ++ m ++ ".json").data = _
  rw [String.data_append, String.data_append, List.append_assoc]
  rfl

theorem decode_machine_filename_toList (f : String) :
    (decode_machine_filename f).toList =
      stripAll ".json".toList (stripAll "machine_".toList f.toList) := rfl

theorem decode_encode_core (m : String) :
    (decode_machine_filename (get_machine_file m)).toList =
      stripAll ".json".toList (stripAll "machine_".toList m.toList ++ ".json".toList) := by
  rw [decode_machine_filename_toList, get_machine_file_toList,
    stripAll_append_left_self _ _ (by decide),
    stripAll_append_split "machine_".toList ".json".toList m.toList (by decide)
      (fun a₂ h0 _ hx => mpat_noCross a₂ h0 hx),
    stripAll_mpat_jpat]

theorem decode_encode_eq (m : String)
    (hM : ¬ "machine_".toList <:+: m.toList)
    (hJ : ¬ ".json".toList <:+: m.toList) :
    decode_machine_filename (get_machine_file m) = m := by
  apply string_eq_of_toList_eq
  rw [decode_encode_core, stripAll_of_not_sub _ _ hM,
    stripAll_append_right_self ".json".toList jpat_borderFree (by decide) m.toList hJ]

theorem decode_encode_length_lt (m : String)
    (h : "machine_".toList <:+: m.toList ∨ ".json".toList <:+: m.toList) :
    (decode_machine_filename (get_machine_file m)).toList.length < m.toList.length := by
  rw [decode_encode_core]
  by_cases hM : "machine_".toList <:+: m.toList
  · have h1 := stripAll_length_add_le "machine_".toList m.toList (by decide) hM
    have h2 := stripAll_length_add_le ".json".toList
      (stripAll "machine_".toList m.toList ++ ".json".toList) (by decide)
      (List.suffix_append _ _).isInfix
    simp only [List.length_append] at h2
    have hMlen : "machine_".toList.length = 8 := by decide
    have hJlen : ".json".toList.length = 5 := by decide
    omega
  · have hJ : ".json".toList <:+: m.toList := h.resolve_left hM
    rw [stripAll_of_not_sub _ _ hM]
    exact stripAll_append_right_self_length ".json".toList m.toList (by decide) hJ

theorem decode_encode_ne (m : String)
    (h : "machine_".toList <:+: m.toList ∨ ".json".toList <:+: m.toList) :
    decode_machine_filename (get_machine_file m) ≠ m := by
  intro heq
  have := decode_encode_length_lt m h
  rw [heq] at this
  exact Nat.lt_irrefl _ this

theorem cleanId_true_iff (m : String) :
    cleanId m = true ↔
      ¬ "machine_".toList <:+: m.toList ∧ ¬ ".json".toList <:+: m.toList := by
  simp only [cleanId, Bool.and_eq_true, Bool.not_eq_true', Bool.eq_false_iff,
    ne_eq, hasSub_iff]

/-! ### Filesystem operation lemmas -/

theorem lookupFile_setFile_self (fs : FS) (n : String) (c : FileContent) :
    lookupFile (setFile fs n c) n = some c := by
  induction fs with
  | nil => simp [setFile, lookupFile]
  | cons e t ih =>
    obtain ⟨n', c'⟩ := e
    by_cases h : n' = n
    · subst h; simp [setFile, lookupFile]
    · simp [setFile, lookupFile, h, ih]

theorem lookupFile_setFile_ne (fs : FS) (n m : String) (c : FileContent)
    (h : m ≠ n) : lookupFile (setFile fs n c) m = lookupFile fs m := by
  induction fs with
  | nil => simp [setFile, lookupFile, Ne.symm h]
  | cons e t ih =>
    obtain ⟨n', c'⟩ := e
    by_cases h2 : n' = n
    · subst h2; simp [setFile, lookupFile, Ne.symm h]
    · by_cases h3 : n' = m
      · subst h3; simp [setFile, lookupFile, h2]
      · simp [setFile, lookupFile, h2, h3, ih]

theorem mem_setFile_self (fs : FS) (n : String) (c : FileContent) :
    (n, c) ∈ setFile fs n c := by
  induction fs with
  | nil => simp [setFile]
  | cons e t ih =>
    obtain ⟨n', c'⟩ := e
    by_cases h : n' = n
    · subst h; simp [setFile]
    · simp only [setFile, if_neg h]
      exact List.mem_cons_of_mem _ ih

theorem lookupFile_mem (fs : FS) (n : String) (c : FileContent)
    (h : lookupFile fs n = some c) : (n, c) ∈ fs := by
  induction fs with
  | nil => simp [lookupFile] at h
  | cons e t ih =>
    obtain ⟨n', c'⟩ := e
    by_cases h2 : n' = n
    · subst h2
      have hcc : c' = c := by simpa [lookupFile] using h
      subst hcc
      exact List.mem_cons_self _ _
    · simp only [lookupFile, if_neg h2] at h
      exact List.mem_cons_of_mem _ (ih h)

theorem mem_keys_setFile (fs : FS) (n : String) (c : FileContent) (m : String)
    (h : m ∈ (setFile fs n c).map Prod.fst) : m ∈ fs.map Prod.fst ∨ m = n := by
  induction fs with
  | nil =>
    right
    simpa [setFile] using h
  | cons e t ih =>
    obtain ⟨n', c'⟩ := e
    by_cases h2 : n' = n
    · subst h2
      exact Or.inl (by simpa [setFile] using h)
    · simp only [setFile, if_neg h2, List.map_cons, List.mem_cons] at h ⊢
      rcases h with h | h
      · exact Or.inl (Or.inl h)
      · rcases ih h with h3 | h3
        · exact Or.inl (Or.inr h3)
        · exact Or.inr h3

theorem keys_nodup_setFile (fs : FS) (n : String) (c : FileContent)
    (h : (fs.map Prod.fst).Nodup) : ((setFile fs n c).map Prod.fst).Nodup := by
  induction fs with
  | nil => simp [setFile]
  | cons e t ih =>
    obtain ⟨n', c'⟩ := e
    simp only [List.map_cons, List.nodup_cons] at h
    by_cases h2 : n' = n
    · subst h2
      have hset : setFile ((n', c') :: t) n' c = (n', c) :: t := by simp [setFile]
      rw [hset, List.map_cons, List.nodup_cons]
      exact h
    · simp only [setFile, if_neg h2, List.map_cons, List.nodup_cons]
      refine ⟨fun hmem => ?_, ih h.2⟩
      rcases mem_keys_setFile t n c n' hmem with h3 | h3
      · exact h.1 h3
      · exact h2 h3

theorem countName_eq_zero_of_not_mem_keys (fs : FS) (m : String)
    (h : m ∉ fs.map Prod.fst) : countName fs m = 0 := by
  induction fs with
  | nil => rfl
  | cons e t ih =>
    obtain ⟨n', c'⟩ := e
    simp only [List.map_cons, List.mem_cons, not_or] at h
    have hne : (n' == m) = false := by
      simp only [beq_eq_false_iff_ne, ne_eq]
      exact fun hx => h.1 hx.symm
    simp only [countName, List.filter_cons, hne, Bool.false_eq_true, if_false]
    exact ih h.2

theorem countName_le_one_of_nodup (fs : FS) (m : String)
    (h : (fs.map Prod.fst).Nodup) : countName fs m ≤ 1 := by
  induction fs with
  | nil => simp [countName]
  | cons e t ih =>
    obtain ⟨n', c'⟩ := e
    simp only [List.map_cons, List.nodup_cons] at h
    by_cases h2 : n' = m
    · subst h2
      have hz := countName_eq_zero_of_not_mem_keys t n' h.1
      simp only [countName] at hz
      simp only [countName, List.filter_cons, beq_self_eq_true, if_true,
        List.length_cons]
      omega
    · have hne : (n' == m) = false := by
        simp only [beq_eq_false_iff_ne, ne_eq]
        exact h2
      simp only [countName, List.filter_cons, hne, Bool.false_eq_true, if_false]
      exact ih h.2

theorem countName_pos_of_mem (fs : FS) (m : String) (c : FileContent)
    (h : (m, c) ∈ fs) : 1 ≤ countName fs m := by
  have hmem : (m, c) ∈ fs.filter (fun e => e.1 == m) :=
    List.mem_filter.mpr ⟨h, by simp⟩
  exact List.length_pos_of_mem hmem

theorem lookupFile_removeFile_self (fs : FS) (n : String) :
    lookupFile (removeFile fs n) n = none := by
  induction fs with
  | nil => rfl
  | cons e t ih =>
    obtain ⟨n', c'⟩ := e
    by_cases h : n' = n
    · subst h
      simp only [removeFile, List.filter_cons, beq_self_eq_true, Bool.not_true,
        Bool.false_eq_true, if_false]
      simpa [removeFile] using ih
    · have hne : (n' == n) = false := by
        simp only [beq_eq_false_iff_ne, ne_eq]; exact h
      simp only [removeFile, List.filter_cons, hne, Bool.not_false, if_true,
        lookupFile, if_neg h]
      simpa [removeFile] using ih

theorem lookupFile_removeFile_ne (fs : FS) (n m : String) (h : m ≠ n) :
    lookupFile (removeFile fs n) m = lookupFile fs m := by
  induction fs with
  | nil => rfl
  | cons e t ih =>
    obtain ⟨n', c'⟩ := e
    by_cases h2 : n' = n
    · subst h2
      simp only [removeFile, List.filter_cons, beq_self_eq_true, Bool.not_true,
        Bool.false_eq_true, if_false, lookupFile, if_neg (Ne.symm h)]
      simpa [removeFile] using ih
    · have hne : (n' == n) = false := by
        simp only [beq_eq_false_iff_ne, ne_eq]; exact h2
      by_cases h3 : n' = m
      · subst h3
        simp [removeFile, List.filter_cons, hne, lookupFile]
      · simp only [removeFile, List.filter_cons, hne, Bool.not_false, if_true,
          lookupFile, if_neg h3]
        simpa [removeFile] using ih

theorem get_machine_file_inj {a b : String}
    (h : get_machine_file a = get_machine_file b) : a = b := by
  have h2 := congrArg String.toList h
  rw [get_machine_file_toList, get_machine_file_toList] at h2
  have h3 := List.append_cancel_left h2
  have h4 := List.append_cancel_right h3
  exact string_eq_of_toList_eq h4

/-! ### Listing lemmas -/

theorem pyStartswith_machine_file (m : String) :
    pyStartswith (get_machine_file m) "machine_" = true := by
  unfold pyStartswith
  rw [List.isPrefixOf_iff_prefix, get_machine_file_toList]
  exact List.prefix_append _ _

theorem pyEndswith_machine_file (m : String) :
    pyEndswith (get_machine_file m) ".json" = true := by
  unfold pyEndswith
  rw [List.isSuffixOf_iff_suffix, get_machine_file_toList]
  exact (List.suffix_append _ _).trans (List.suffix_append _ _)

theorem mem_get_all_machines_load (fs : FS) (x : MachineSummary)
    (h : x ∈ get_all_machines fs) :
    ∃ r : StoredRecord, load_weight_data fs x.machine_id = some r ∧
      x.weight = r.weight ∧ x.last_updated = r.last_updated := by
  obtain ⟨e, _, hfe⟩ := List.mem_filterMap.mp h
  unfold entrySummary at hfe
  by_cases hcond : (pyStartswith e.1 "machine_" && pyEndswith e.1 ".json") = true
  · rw [if_pos hcond] at hfe
    cases hload : load_weight_data fs (decode_machine_filename e.1) with
    | none => rw [hload] at hfe; cases hfe
    | some r =>
      rw [hload] at hfe
      simp only [Option.some.injEq] at hfe
      subst hfe
      exact ⟨r, hload, rfl, rfl⟩
  · rw [if_neg hcond] at hfe
    cases hfe

theorem not_listed_of_load_none (fs : FS) (m : String)
    (h : load_weight_data fs m = none) :
    ∀ x ∈ get_all_machines fs, x.machine_id ≠ m := by
  intro x hx heq
  obtain ⟨r, hload, _, _⟩ := mem_get_all_machines_load fs x hx
  rw [heq, h] at hload
  cases hload

theorem listed_of_record (fs : FS) (m : String) (r : StoredRecord)
    (hM : ¬ "machine_".toList <:+: m.toList)
    (hJ : ¬ ".json".toList <:+: m.toList)
    (hlook : lookupFile fs (get_machine_file m) = some (.record r)) :
    ({ machine_id := m, weight := r.weight, last_updated := r.last_updated } :
      MachineSummary) ∈ get_all_machines fs := by
  apply List.mem_filterMap.mpr
  refine ⟨(get_machine_file m, .record r), lookupFile_mem _ _ _ hlook, ?_⟩
  unfold entrySummary
  rw [if_pos (by
    rw [Bool.and_eq_true]
    exact ⟨pyStartswith_machine_file m, pyEndswith_machine_file m⟩)]
  have hdec : decode_machine_filename (get_machine_file m) = m :=
    decode_encode_eq m hM hJ
  rw [hdec]
  unfold load_weight_data
  rw [hlook]

theorem entrySummary_removeFile_corrupt (fs : FS) (m : String)
    (hcor : lookupFile fs (get_machine_file m) = some .corrupt)
    (e : String × FileContent) :
    entrySummary (removeFile fs (get_machine_file m)) e = entrySummary fs e := by
  unfold entrySummary
  by_cases hcond : (pyStartswith e.1 "machine_" && pyEndswith e.1 ".json") = true
  · rw [if_pos hcond, if_pos hcond]
    have hload : load_weight_data (removeFile fs (get_machine_file m))
        (decode_machine_filename e.1) =
        load_weight_data fs (decode_machine_filename e.1) := by
      unfold load_weight_data
      by_cases hf : get_machine_file (decode_machine_filename e.1) = get_machine_file m
      · have hm : decode_machine_filename e.1 = m := get_machine_file_inj hf
        rw [hm, lookupFile_removeFile_self, hcor]
      · rw [lookupFile_removeFile_ne fs (get_machine_file m) _ hf]
    rw [hload]
  · rw [if_neg hcond, if_neg hcond]

theorem filterMap_filter_of_none {α β : Type} (f : α → Option β)
    (p : α → Bool) (l : List α)
    (h : ∀ e ∈ l, p e = false → f e = none) :
    (l.filter p).filterMap f = l.filterMap f := by
  induction l with
  | nil => rfl
  | cons a t ih =>
    have ht : ∀ e ∈ t, p e = false → f e = none :=
      fun e he hp => h e (List.mem_cons_of_mem a he) hp
    rcases Bool.eq_false_or_eq_true (p a) with hp | hp
    · rw [List.filter_cons, hp, if_pos rfl, List.filterMap_cons, List.filterMap_cons]
      cases f a with
      | none => exact ih ht
      | some b => rw [ih ht]
    · rw [List.filter_cons, hp]
      simp only [Bool.false_eq_true, if_false]
      rw [List.filterMap_cons, h a (List.mem_cons_self a t) hp]
      exact ih ht

theorem get_all_machines_removeFile_corrupt (fs : FS) (m : String)
    (hcor : lookupFile fs (get_machine_file m) = some .corrupt)
    (hM : ¬ "machine_".toList <:+: m.toList)
    (hJ : ¬ ".json".toList <:+: m.toList) :
    get_all_machines (removeFile fs (get_machine_file m)) = get_all_machines fs := by
  unfold get_all_machines
  rw [List.filterMap_congr (fun e _ => entrySummary_removeFile_corrupt fs m hcor e)]
  unfold removeFile
  apply filterMap_filter_of_none
  intro e _ hp
  have hname : e.1 = get_machine_file m := by
    apply beq_iff_eq.mp
    rcases Bool.eq_false_or_eq_true (e.1 == get_machine_file m) with hx | hx
    · exact hx
    · rw [hx] at hp
      simp at hp
  unfold entrySummary
  by_cases hcond : (pyStartswith e.1 "machine_" && pyEndswith e.1 ".json") = true
  · rw [if_pos hcond]
    have hdec : decode_machine_filename e.1 = m := by
      rw [hname]
      exact decode_encode_eq m hM hJ
    rw [hdec]
    unfold load_weight_data
    rw [hcor]
  · rw [if_neg hcond]

/-! ### Shared computation lemmas for the routes -/

theorem update_weight_ok_num (clock : Nat → Nat) (s : Sys) (m : String)
    (w : PyFloat) :
    update_weight clock .ok s m (some [("weight", .num w)]) =
      (.success (updMsg m) m w (clock (s.ctr + 2)),
       ⟨setFile s.fs (get_machine_file m)
          (.record ⟨m, w, clock s.ctr, clock (s.ctr + 1)⟩), s.ctr + 3⟩) := rfl

theorem update_weight_failOpen_num (clock : Nat → Nat) (s : Sys) (m : String)
    (w : PyFloat) :
    update_weight clock .failOpen s m (some [("weight", .num w)]) =
      (.serverError "Failed to save weight data", ⟨s.fs, s.ctr + 2⟩) := rfl

theorem update_weight_failDump_num (clock : Nat → Nat) (s : Sys) (m : String)
    (w : PyFloat) :
    update_weight clock .failDump s m (some [("weight", .num w)]) =
      (.serverError "Failed to save weight data",
       ⟨setFile s.fs (get_machine_file m) .corrupt, s.ctr + 2⟩) := rfl

theorem update_weight_of_valueError (clock : Nat → Nat) (outcome : WriteOutcome)
    (s : Sys) (m : String) (kvs : List (String × JsonValue)) (v : JsonValue)
    (hv : dictGet kvs "weight" = some v)
    (he : floatOfJson v = .error .valueError) :
    update_weight clock outcome s m (some kvs) =
      (.clientError "Invalid weight format", s) := by
  have hne : kvs ≠ [] := by
    intro hx
    subst hx
    simp [dictGet] at hv
  simp only [update_weight, if_neg hne, hv, he]

theorem get_weight_setFile_record (fs : FS) (m : String) (w : PyFloat)
    (ts lu : Nat) :
    get_weight (setFile fs (get_machine_file m) (.record ⟨m, w, ts, lu⟩)) m =
      .success m w ts := by
  unfold get_weight load_weight_data
  rw [lookupFile_setFile_self]

/-! ### Claim theorems -/

/-- C1: for every machine id and JSON-numeric weight, a successful Submit
of that weight followed by GetLatest returns the success shape carrying
exactly that weight — and the persisted record's weight equals the
accepted weight — with a timestamp not earlier than the clock reading
`clock ctr` current at the instant the Submit handler started. -/
theorem c1_submit_then_getLatest (clock : Nat → Nat) (fs : FS) (ctr : Nat)
    (m : String) (w : PyFloat) :
    (update_weight clock .ok ⟨fs, ctr⟩ m (some [("weight", .num w)])).1 =
        .success (updMsg m) m w (clock (ctr + 2)) ∧
    lookupFile (update_weight clock .ok ⟨fs, ctr⟩ m
        (some [("weight", .num w)])).2.fs (get_machine_file m) =
      some (.record ⟨m, w, clock ctr, clock (ctr + 1)⟩) ∧
    ∃ ts, get_weight (update_weight clock .ok ⟨fs, ctr⟩ m
        (some [("weight", .num w)])).2.fs m = .success m w ts ∧
      clock ctr ≤ ts := by
  refine ⟨?_, ?_, clock ctr, ?_, le_rfl⟩
  · rw [update_weight_ok_num]
  · rw [update_weight_ok_num]
    exact lookupFile_setFile_self _ _ _
  · rw [update_weight_ok_num]
    exact get_weight_setFile_record fs m w (clock ctr) (clock (ctr + 1))

/-- C4 counterexample: with the identity clock, submitting weight 5 for
machine "1" on an empty store returns acknowledgement timestamp 2 (a
third, fresh `datetime.now()` reading), while the record persisted by that
same Put stores timestamp 0 — so the timestamp returned to the caller is
not the one stored in the record, contrary to the claim. -/
theorem c4_ack_timestamp_cex :
    (update_weight (fun n => n) .ok ⟨[], 0⟩ "1"
        (some [("weight", .num (.finite 5))])).1 =
      .success (updMsg "1") "1" (.finite 5) 2 ∧
    lookupFile (update_weight (fun n => n) .ok ⟨[], 0⟩ "1"
        (some [("weight", .num (.finite 5))])).2.fs (get_machine_file "1") =
      some (.record ⟨"1", .finite 5, 0, 1⟩) ∧
    (2 : Nat) ≠ 0 := by
  refine ⟨rfl, rfl, by decide⟩

/-- C4 (amended): a successful Submit echoes the machine id and the
accepted weight, but its acknowledgement timestamp is a third, fresh
`datetime.now()` reading `clock (ctr + 2)` taken after the write, whereas
the persisted record stores the first reading `clock ctr`; the two agree
only when the clock happens to return the same value at both calls. -/
theorem c4_ack_echo_fresh_timestamp (clock : Nat → Nat) (fs : FS) (ctr : Nat)
    (m : String) (w : PyFloat) :
    (update_weight clock .ok ⟨fs, ctr⟩ m (some [("weight", .num w)])).1 =
        .success (updMsg m) m w (clock (ctr + 2)) ∧
    lookupFile (update_weight clock .ok ⟨fs, ctr⟩ m
        (some [("weight", .num w)])).2.fs (get_machine_file m) =
      some (.record ⟨m, w, clock ctr, clock (ctr + 1)⟩) := by
  refine ⟨?_, ?_⟩
  · rw [update_weight_ok_num]
  · rw [update_weight_ok_num]
    exact lookupFile_setFile_self _ _ _

/-- C2 counterexample: the store holds records for machines "1" and "2"; a
write failing during `json.dump` (after `open(..., 'w')` truncated the
file in place) while updating machine "1" returns the server error, but
the pre-existing record of machine "1" is destroyed: GetLatest afterwards
reports no data, contrary to "neither corrupted nor removed". -/
theorem c2_inplace_write_cex :
    load_weight_data
        [(get_machine_file "1", .record ⟨"1", .finite 7, 0, 0⟩),
         (get_machine_file "2", .record ⟨"2", .finite 9, 0, 0⟩)] "1" =
      some ⟨"1", .finite 7, 0, 0⟩ ∧
    (update_weight (fun n => n) .failDump
        ⟨[(get_machine_file "1", .record ⟨"1", .finite 7, 0, 0⟩),
          (get_machine_file "2", .record ⟨"2", .finite 9, 0, 0⟩)], 2⟩ "1"
        (some [("weight", .num (.finite 5))])).1 =
      .serverError "Failed to save weight data" ∧
    load_weight_data
        (update_weight (fun n => n) .failDump
          ⟨[(get_machine_file "1", .record ⟨"1", .finite 7, 0, 0⟩),
            (get_machine_file "2", .record ⟨"2", .finite 9, 0, 0⟩)], 2⟩ "1"
          (some [("weight", .num (.finite 5))])).2.fs "1" = none := by
  refine ⟨rfl, rfl, rfl⟩

/-- C2 (amended): a persistence failure during Put yields the server-error
response; if `open` itself raises, the whole store is untouched, and in
every failure mode all other machines' files are unchanged — but when the
failure happens during `json.dump`, the in-place truncate-then-write
leaves the target machine's file corrupt (the write is not
temp-then-rename). -/
theorem c2_persistence_failure (clock : Nat → Nat) (fs : FS) (ctr : Nat)
    (m : String) (w : PyFloat) :
    ((update_weight clock .failOpen ⟨fs, ctr⟩ m
        (some [("weight", .num w)])).1 =
          .serverError "Failed to save weight data" ∧
      (update_weight clock .failOpen ⟨fs, ctr⟩ m
        (some [("weight", .num w)])).2.fs = fs) ∧
    ((update_weight clock .failDump ⟨fs, ctr⟩ m
        (some [("weight", .num w)])).1 =
          .serverError "Failed to save weight data" ∧
      lookupFile (update_weight clock .failDump ⟨fs, ctr⟩ m
          (some [("weight", .num w)])).2.fs (get_machine_file m) =
        some .corrupt ∧
      ∀ n, n ≠ get_machine_file m →
        lookupFile (update_weight clock .failDump ⟨fs, ctr⟩ m
            (some [("weight", .num w)])).2.fs n = lookupFile fs n) := by
  refine ⟨⟨?_, ?_⟩, ?_, ?_, ?_⟩
  · rw [update_weight_failOpen_num]
  · rw [update_weight_failOpen_num]
  · rw [update_weight_failDump_num]
  · rw [update_weight_failDump_num]
    exact lookupFile_setFile_self _ _ _
  · intro n hn
    rw [update_weight_failDump_num]
    exact lookupFile_setFile_ne fs (get_machine_file m) n .corrupt hn

/-- C2 witness: the other machine "2" is indeed untouched by a failed dump
for machine "1" on a concrete two-machine store. -/
theorem c2_persistence_failure_witness :
    ("machine_2.json" : String) ≠ get_machine_file "1" ∧
    lookupFile (update_weight (fun n => n) .failDump
        ⟨[(get_machine_file "2", .record ⟨"2", .finite 9, 0, 0⟩)], 0⟩ "1"
        (some [("weight", .num (.finite 5))])).2.fs "machine_2.json" =
      lookupFile [(get_machine_file "2", .record ⟨"2", .finite 9, 0, 0⟩)]
        "machine_2.json" :=
  ⟨by decide,
    (c2_persistence_failure (fun n => n)
      [(get_machine_file "2", .record ⟨"2", .finite 9, 0, 0⟩)] 0 "1"
      (.finite 5)).2.2.2 "machine_2.json" (by decide)⟩

/-- C3 counterexample: the payload weight string "inf" is not a finite
decimal number, yet `float("inf")` succeeds, so the submission is accepted
with a 200 success and a record with a non-finite weight is stored —
contradicting both the rejection and the every-stored-weight-is-finite
consequence of the claim. -/
theorem c3_nonfinite_accepted_cex :
    pyFloatOfString "inf" = some PyFloat.inf ∧
    (update_weight (fun n => n) .ok ⟨[], 0⟩ "1"
        (some [("weight", .str "inf")])).1 =
      .success (updMsg "1") "1" PyFloat.inf 2 ∧
    lookupFile (update_weight (fun n => n) .ok ⟨[], 0⟩ "1"
        (some [("weight", .str "inf")])).2.fs (get_machine_file "1") =
      some (.record ⟨"1", PyFloat.inf, 0, 1⟩) ∧
    isFiniteWeight PyFloat.inf = false := by
  refine ⟨rfl, rfl, rfl, rfl⟩

/-- C3 (amended): a payload whose weight value makes `float()` raise a
`ValueError` (non-numeric strings and other unparsable text) is rejected
with the 400 client error before any record is created or overwritten —
the whole state is unchanged; however, values that `float()` converts to
non-finite results (such as the strings "inf" or "nan") are accepted and
stored, so a stored weight need not be finite. -/
theorem c3_valueError_rejected (clock : Nat → Nat) (outcome : WriteOutcome)
    (s : Sys) (m : String) (kvs : List (String × JsonValue)) (v : JsonValue)
    (hv : dictGet kvs "weight" = some v)
    (he : floatOfJson v = .error .valueError) :
    update_weight clock outcome s m (some kvs) =
      (.clientError "Invalid weight format", s) :=
  update_weight_of_valueError clock outcome s m kvs v hv he

/-- C3 witness: the unparsable weight string "xyz" is rejected with the
client error and the store is unchanged. -/
theorem c3_valueError_rejected_witness :
    dictGet [("weight", JsonValue.str "xyz")] "weight" =
      some (JsonValue.str "xyz") ∧
    floatOfJson (JsonValue.str "xyz") = .error .valueError ∧
    update_weight (fun n => n) .ok ⟨[], 0⟩ "7"
        (some [("weight", JsonValue.str "xyz")]) =
      (.clientError "Invalid weight format", ⟨[], 0⟩) :=
  ⟨by decide, rfl,
    c3_valueError_rejected (fun n => n) .ok ⟨[], 0⟩ "7"
      [("weight", JsonValue.str "xyz")] (JsonValue.str "xyz")
      (by decide) rfl⟩

/-- C5: two sequential Submits for the same machine with weights 10.5 then
12.0 leave exactly one record for that machine, holding weight 12.0 and
the second write's timestamps — GetLatest returns 12.0 only, the prior
record is fully replaced (weight and observed_at), and on a directory with
unique filenames at most one record exists per machine id at any time. -/
theorem c5_second_put_replaces (clock : Nat → Nat) (fs : FS) (ctr : Nat)
    (m : String) (hnd : (fs.map Prod.fst).Nodup) :
    get_weight (update_weight clock .ok
        (update_weight clock .ok ⟨fs, ctr⟩ m
          (some [("weight", .num (.finite (10.5 : ℚ)))])).2 m
        (some [("weight", .num (.finite (12 : ℚ)))])).2.fs m =
      .success m (.finite (12 : ℚ)) (clock (ctr + 3)) ∧
    lookupFile (update_weight clock .ok
        (update_weight clock .ok ⟨fs, ctr⟩ m
          (some [("weight", .num (.finite (10.5 : ℚ)))])).2 m
        (some [("weight", .num (.finite (12 : ℚ)))])).2.fs (get_machine_file m) =
      some (.record ⟨m, .finite (12 : ℚ), clock (ctr + 3), clock (ctr + 4)⟩) ∧
    countName (update_weight clock .ok
        (update_weight clock .ok ⟨fs, ctr⟩ m
          (some [("weight", .num (.finite (10.5 : ℚ)))])).2 m
        (some [("weight", .num (.finite (12 : ℚ)))])).2.fs (get_machine_file m) = 1 ∧
    ∀ name, countName (update_weight clock .ok
        (update_weight clock .ok ⟨fs, ctr⟩ m
          (some [("weight", .num (.finite (10.5 : ℚ)))])).2 m
        (some [("weight", .num (.finite (12 : ℚ)))])).2.fs name ≤ 1 := by
  rw [update_weight_ok_num, update_weight_ok_num]
  have hnd2 : ((setFile (setFile fs (get_machine_file m)
      (.record ⟨m, .finite (10.5 : ℚ), clock ctr, clock (ctr + 1)⟩))
      (get_machine_file m)
      (.record ⟨m, .finite (12 : ℚ), clock (ctr + 3), clock (ctr + 4)⟩)).map
        Prod.fst).Nodup :=
    keys_nodup_setFile _ _ _ (keys_nodup_setFile _ _ _ hnd)
  refine ⟨get_weight_setFile_record _ m _ _ _, lookupFile_setFile_self _ _ _,
    ?_, fun name => countName_le_one_of_nodup _ name hnd2⟩
  exact Nat.le_antisymm (countName_le_one_of_nodup _ _ hnd2)
    (countName_pos_of_mem _ _ _ (mem_setFile_self _ _ _))

/-- C5 witness: the overwrite scenario on the empty store with the
identity clock. -/
theorem c5_second_put_replaces_witness :
    ((([] : FS).map Prod.fst).Nodup) ∧
    get_weight (update_weight (fun n => n) .ok
        (update_weight (fun n => n) .ok ⟨[], 0⟩ "1"
          (some [("weight", .num (.finite (10.5 : ℚ)))])).2 "1"
        (some [("weight", .num (.finite (12 : ℚ)))])).2.fs "1" =
      .success "1" (.finite (12 : ℚ)) 3 :=
  ⟨by decide, (c5_second_put_replaces (fun n => n) [] 0 "1" (by decide)).1⟩

/-- C6: for a machine whose load finds no data (no file, or only bytes the
decoder rejects — in particular a machine never successfully submitted),
GetLatest returns the distinguished `no_data` response, a normal outcome
whose shape differs from the success shape (and which is not the
HTTP-error shape, a different response type altogether). -/
theorem c6_get_unknown_machine (fs : FS) (m : String)
    (h : load_weight_data fs m = none) :
    get_weight fs m = .no_data (noDataMsg m) ∧
    ∀ mid w ts, GetWeightResp.no_data (noDataMsg m) ≠ .success mid w ts := by
  constructor
  · unfold get_weight
    rw [h]
  · intro mid w ts hx
    cases hx

/-- C6 witness: machine "2" on the empty store. -/
theorem c6_get_unknown_machine_witness :
    load_weight_data [] "2" = none ∧
    get_weight [] "2" = .no_data (noDataMsg "2") :=
  ⟨rfl, (c6_get_unknown_machine [] "2" rfl).1⟩

/-- C7: submitting the non-numeric payload weight "abc" yields the 400
client error and leaves the state — filesystem and clock counter — exactly
as it was, for every store and failure mode; GetLatest afterwards returns
exactly what it returned before, and still `no_data` if the machine was
previously unset. -/
theorem c7_abc_rejected_store_unchanged (clock : Nat → Nat)
    (outcome : WriteOutcome) (fs : FS) (ctr : Nat) (m : String) :
    update_weight clock outcome ⟨fs, ctr⟩ m
        (some [("weight", JsonValue.str "abc")]) =
      (.clientError "Invalid weight format", ⟨fs, ctr⟩) ∧
    get_weight (update_weight clock outcome ⟨fs, ctr⟩ m
        (some [("weight", JsonValue.str "abc")])).2.fs m = get_weight fs m ∧
    (load_weight_data fs m = none →
      get_weight (update_weight clock outcome ⟨fs, ctr⟩ m
          (some [("weight", JsonValue.str "abc")])).2.fs m =
        .no_data (noDataMsg m)) := by
  have hupd : update_weight clock outcome ⟨fs, ctr⟩ m
      (some [("weight", JsonValue.str "abc")]) =
      (.clientError "Invalid weight format", ⟨fs, ctr⟩) :=
    update_weight_of_valueError clock outcome ⟨fs, ctr⟩ m _ (JsonValue.str "abc")
      (by decide) rfl
  refine ⟨hupd, by rw [hupd], fun h => ?_⟩
  rw [hupd]
  unfold get_weight
  rw [h]

/-- C7 witness: the rejection at machine "1" on the empty store, where the
machine stays `no_data`. -/
theorem c7_abc_rejected_store_unchanged_witness :
    update_weight (fun n => n) .ok ⟨[], 0⟩ "1"
        (some [("weight", JsonValue.str "abc")]) =
      (.clientError "Invalid weight format", ⟨[], 0⟩) ∧
    load_weight_data [] "1" = none ∧
    get_weight (update_weight (fun n => n) .ok ⟨[], 0⟩ "1"
        (some [("weight", JsonValue.str "abc")])).2.fs "1" =
      .no_data (noDataMsg "1") :=
  ⟨(c7_abc_rejected_store_unchanged (fun n => n) .ok [] 0 "1").1, rfl,
    (c7_abc_rejected_store_unchanged (fun n => n) .ok [] 0 "1").2.2 rfl⟩

/-- C8 counterexample: after submitting for machine "x.json" the store
holds a record for it — GetLatest-level load succeeds — yet ListMachines
returns no summary at all (the decoded name "x" re-encodes to a missing
file), so the listing does not enumerate exactly the machine identifiers
that currently have a record. -/
theorem c8_listing_misses_record_cex :
    load_weight_data (update_weight (fun n => n) .ok ⟨[], 0⟩ "x.json"
        (some [("weight", .num (.finite 5))])).2.fs "x.json" =
      some ⟨"x.json", .finite 5, 0, 1⟩ ∧
    get_all_machines (update_weight (fun n => n) .ok ⟨[], 0⟩ "x.json"
        (some [("weight", .num (.finite 5))])).2.fs = [] ∧
    (list_machines (update_weight (fun n => n) .ok ⟨[], 0⟩ "x.json"
        (some [("weight", .num (.finite 5))])).2.fs).count = 0 :=
  ⟨rfl, rfl, rfl⟩

/-- C8 (amended): ListMachines always reports `count` equal to the number
of returned summaries and returns the empty sequence (status "success",
not an error) on the empty store; after submitting for identifiers "1"
and "3" (never "2") on an empty store it returns exactly the two summaries
for "1" and "3" with count 2.  (Exact enumeration holds only for
identifiers containing neither "machine_" nor ".json"; a machine such as
"x.json" can hold a record yet be omitted.) -/
theorem c8_count_and_scenario (clock : Nat → Nat) (w1 w3 : PyFloat) (fs : FS) :
    (list_machines fs).count = (list_machines fs).machines.length ∧
    get_all_machines [] = [] ∧
    (list_machines []).status = "success" ∧
    (list_machines []).count = 0 ∧
    get_all_machines (update_weight clock .ok
        (update_weight clock .ok ⟨[], 0⟩ "1" (some [("weight", .num w1)])).2 "3"
        (some [("weight", .num w3)])).2.fs =
      [⟨"1", w1, clock 1⟩, ⟨"3", w3, clock 4⟩] ∧
    (list_machines (update_weight clock .ok
        (update_weight clock .ok ⟨[], 0⟩ "1" (some [("weight", .num w1)])).2 "3"
        (some [("weight", .num w3)])).2.fs).count = 2 := by
  refine ⟨rfl, rfl, rfl, rfl, rfl, ?_⟩
  show (get_all_machines _).length = 2
  rw [show get_all_machines (update_weight clock .ok
      (update_weight clock .ok ⟨[], 0⟩ "1" (some [("weight", .num w1)])).2 "3"
      (some [("weight", .num w3)])).2.fs =
    [⟨"1", w1, clock 1⟩, ⟨"3", w3, clock 4⟩] from rfl]
  rfl

/-- C9: when the durable bytes of one (round-trippable) machine fail to
decode, that machine contributes no summary to ListMachines, its GetLatest
behaves as the `no_data` outcome rather than an error, the List operation
still succeeds, and the listing is exactly what it would be with the
corrupt file absent — every other machine is served as usual; a machine
with a well-formed record (and round-trippable identifier) is still
returned. -/
theorem c9_corrupt_record_graceful (fs : FS) (m : String)
    (hcor : lookupFile fs (get_machine_file m) = some .corrupt)
    (hc : cleanId m = true) :
    (∀ x ∈ get_all_machines fs, x.machine_id ≠ m) ∧
    get_weight fs m = .no_data (noDataMsg m) ∧
    (list_machines fs).status = "success" ∧
    get_all_machines (removeFile fs (get_machine_file m)) = get_all_machines fs ∧
    (∀ m' r', cleanId m' = true →
      lookupFile fs (get_machine_file m') = some (.record r') →
      ({ machine_id := m', weight := r'.weight, last_updated := r'.last_updated } :
        MachineSummary) ∈ get_all_machines fs) := by
  have hload : load_weight_data fs m = none := by
    unfold load_weight_data
    rw [hcor]
  obtain ⟨hM, hJ⟩ := (cleanId_true_iff m).mp hc
  refine ⟨not_listed_of_load_none fs m hload, ?_, rfl,
    get_all_machines_removeFile_corrupt fs m hcor hM hJ, ?_⟩
  · unfold get_weight
    rw [hload]
  · intro m' r' hc' hlook'
    obtain ⟨hM', hJ'⟩ := (cleanId_true_iff m').mp hc'
    exact listed_of_record fs m' r' hM' hJ' hlook'

/-- C9 witness: a concrete store with a corrupt file for machine "c" and a
good record for machine "2". -/
theorem c9_corrupt_record_graceful_witness :
    lookupFile [(get_machine_file "c", FileContent.corrupt),
        (get_machine_file "2", .record ⟨"2", .finite 3, 0, 0⟩)]
        (get_machine_file "c") = some .corrupt ∧
    cleanId "c" = true ∧
    get_weight [(get_machine_file "c", FileContent.corrupt),
        (get_machine_file "2", .record ⟨"2", .finite 3, 0, 0⟩)] "c" =
      .no_data (noDataMsg "c") ∧
    ({ machine_id := "2", weight := .finite 3, last_updated := 0 } :
        MachineSummary) ∈
      get_all_machines [(get_machine_file "c", FileContent.corrupt),
        (get_machine_file "2", .record ⟨"2", .finite 3, 0, 0⟩)] :=
  ⟨by decide, by decide,
    (c9_corrupt_record_graceful _ "c" (by decide) (by decide)).2.1,
    (c9_corrupt_record_graceful _ "c" (by decide) (by decide)).2.2.2.2 "2"
      ⟨"2", .finite 3, 0, 0⟩ (by decide) (by decide)⟩

/-- C10 counterexample: submitting for the identifier "amachine_b" (which
contains "machine_") on an empty store produces no ListMachines summary at
all — rather than a summary under the stripped identifier "ab" — because
the stripped name re-encodes to a file that does not exist; so the claim
that the listed identifier (merely) differs is false: nothing is listed. -/
theorem c10_dirty_id_not_listed_cex :
    get_all_machines (update_weight (fun n => n) .ok ⟨[], 0⟩ "amachine_b"
        (some [("weight", .num (.finite 5))])).2.fs = [] ∧
    decode_machine_filename (get_machine_file "amachine_b") = "ab" :=
  ⟨rfl, by decide⟩

/-- C10 (amended): for identifiers containing neither "machine_" nor
".json", the filename encode/decode pair is an exact round-trip and a
successful Submit makes ListMachines report a summary with exactly the
submitted identifier; for identifiers containing either substring the
decode strips every occurrence and yields a strictly different name, and
(since the lookup re-encodes the decoded name) such a machine yields no
summary at all on an otherwise empty store. -/
theorem c10_roundtrip (clock : Nat → Nat) (fs : FS) (ctr : Nat) (m : String)
    (w : PyFloat) :
    (cleanId m = true →
      decode_machine_filename (get_machine_file m) = m ∧
      ({ machine_id := m, weight := w, last_updated := clock (ctr + 1) } :
          MachineSummary) ∈
        get_all_machines (update_weight clock .ok ⟨fs, ctr⟩ m
          (some [("weight", .num w)])).2.fs) ∧
    (cleanId m = false → decode_machine_filename (get_machine_file m) ≠ m) := by
  constructor
  · intro hc
    obtain ⟨hM, hJ⟩ := (cleanId_true_iff m).mp hc
    refine ⟨decode_encode_eq m hM hJ, ?_⟩
    rw [update_weight_ok_num]
    exact listed_of_record _ m _ hM hJ (lookupFile_setFile_self _ _ _)
  · intro hc
    have hdirty : "machine_".toList <:+: m.toList ∨ ".json".toList <:+: m.toList := by
      by_contra hno
      rw [not_or] at hno
      rw [(cleanId_true_iff m).mpr ⟨hno.1, hno.2⟩] at hc
      cases hc
    exact decode_encode_ne m hdirty

/-- C10 witness: the clean identifier "ab" round-trips and is listed; the
identifier "machine_z" decodes differently. -/
theorem c10_roundtrip_witness :
    cleanId "ab" = true ∧
    decode_machine_filename (get_machine_file "ab") = "ab" ∧
    cleanId "machine_z" = false ∧
    decode_machine_filename (get_machine_file "machine_z") ≠ "machine_z" :=
  ⟨by decide,
    ((c10_roundtrip (fun n => n) [] 0 "ab" (.finite 5)).1 (by decide)).1,
    by decide,
    (c10_roundtrip (fun n => n) [] 0 "machine_z" (.finite 5)).2 (by decide)⟩
